import Mathlib

/-!
Verification of `build_hne_viewer.py`.

Strings are modelled as lists of characters (`Str`).  Python's whitespace
class and `str.strip`/`rstrip` are modelled over the ASCII whitespace
characters, and the regex digit class over the ASCII digits; the program
only ever feeds style names and paragraph text through these classes.
-/

namespace Gross

/-- A Python string, as a list of characters. -/
abbrev Str := List Char

/-- The ASCII whitespace characters recognised by Python's `str.strip` and
by the regex class matched by the pattern in `heading_level`. -/
def pyIsSpace (c : Char) : Bool :=
  c == ' ' || c == '\t' || c == '\n' || c == '\r' || c == '\x0b' || c == '\x0c'

/-- Python `str.lstrip()`. -/
def pyLstrip (s : Str) : Str := s.dropWhile pyIsSpace

/-- Python `str.rstrip()`. -/
def pyRstrip (s : Str) : Str := (s.reverse.dropWhile pyIsSpace).reverse

/-- Python `str.strip()`. -/
def pyStrip (s : Str) : Str := pyLstrip (pyRstrip s)

/-- `not txt.strip()`: the string is empty or whitespace-only. -/
def isBlank (s : Str) : Bool := s.all pyIsSpace

/-- Numeric value of an ASCII digit character. -/
def digitVal (c : Char) : Nat := c.toNat - 48

/-- Python `int` on a string of decimal digits (most significant first). -/
def parseDigits (ds : Str) : Nat := ds.foldl (fun n c => 10 * n + digitVal c) 0

/-- The word matched case-insensitively at the start of the pattern. -/
def headingWord : Str := ['h', 'e', 'a', 'd', 'i', 'n', 'g']

/-- `heading_level` (lines 29-32): strip the style name, then match
`Heading\s*(\d+)$` case-insensitively anchored at both ends, returning the
parsed integer on success. -/
def heading_level (styleName : Str) : Option Nat :=
  let t := pyStrip styleName
  if (t.take 7).map Char.toLower = headingWord then
    let rest := (t.drop 7).dropWhile pyIsSpace
    if rest ≠ [] ∧ rest.all Char.isDigit then some (parseDigits rest) else none
  else none

/-- A section node of the output tree: title, level, children, content. -/
inductive Node : Type where
  | mk (title : Str) (level : Nat) (children : List Node) (content : List Str)

def Node.title : Node → Str
| .mk t _ _ _ => t

def Node.level : Node → Nat
| .mk _ l _ _ => l

def Node.children : Node → List Node
| .mk _ _ ch _ => ch

def Node.content : Node → List Str
| .mk _ _ _ co => co

/-- An open (still on the stack) node during the build.  Its `children`
are the subtrees already completed below it. -/
structure Frame : Type where
  title : Str
  level : Nat
  children : List Node
  content : List Str

/-- Close a frame into a node. -/
def Frame.toNode (f : Frame) : Node := .mk f.title f.level f.children f.content

/-- Last element of a list. -/
def lastElem? {α : Type} : List α → Option α
| [] => none
| [a] => some a
| _ :: b :: l => lastElem? (b :: l)

/-- `stack[-1]["content"] and stack[-1]["content"][-1] != ""` (line 86). -/
def lastIsNonBlank (l : List Str) : Bool :=
  match lastElem? l with
  | some s => !s.isEmpty
  | none => false

/-- Attach a completed node as the last child of the top frame. -/
def attachTo (n : Node) : List Frame → List Frame
| [] => []
| g :: gs => { g with children := g.children ++ [n] } :: gs

/-- Collapse a frame into the frames below it, top first; each closed frame
becomes the last child of the next frame down. -/
def collapseFrames : Frame → List Frame → Frame
| f, [] => f
| f, g :: gs => collapseFrames { g with children := g.children ++ [f.toNode] } gs

/-- `while stack and stack[-1]["level"] >= lvl: stack.pop()` (lines 93-94).
Closed frames are attached to their parent as they are popped, which mirrors
the aliasing in the Python code (nodes are appended to their parent's child
list and mutated in place afterwards). -/
def popGE (lvl : Nat) (st : List Frame) : List Frame :=
  match st.takeWhile (fun f => decide (lvl ≤ f.level)) with
  | [] => st
  | f :: fs =>
      attachTo (collapseFrames f fs).toNode (st.dropWhile (fun f => decide (lvl ≤ f.level)))

/-- One iteration of the paragraph loop of `build_tree` (lines 83-98).
`none` models an access `stack[-1]` on an empty stack, which would raise in
Python. -/
def step (st : List Frame) (p : Str × Str) : Option (List Frame) :=
  let txt := pyRstrip p.1
  if isBlank txt then
    match st with
    | [] => none
    | f :: rest =>
        if lastIsNonBlank f.content then
          some ({ f with content := f.content ++ [[]] } :: rest)
        else
          some (f :: rest)
  else
    match heading_level p.2 with
    | some (lvl + 1) =>
        match popGE (lvl + 1) st with
        | [] => none
        | f :: rest => some (⟨pyStrip txt, lvl + 1, [], []⟩ :: f :: rest)
    | _ =>
        match st with
        | [] => none
        | f :: rest => some ({ f with content := f.content ++ [txt] } :: rest)

/-- The paragraph loop of `build_tree`. -/
def runSteps : List Frame → List (Str × Str) → Option (List Frame)
| st, [] => some st
| st, p :: ps =>
    match step st p with
    | none => none
    | some st' => runSteps st' ps

/-- Title of the synthetic root (line 80). -/
def rootTitle : Str := "HNE Grossing Guide".data

/-- The initial stack: only the synthetic level-0 root. -/
def rootFrame : Frame := ⟨rootTitle, 0, [], []⟩

/-- `while node["content"] and node["content"][-1] == "": pop()`
(lines 101-102): remove the maximal all-blank suffix. -/
def dropTrailingBlanks : List Str → List Str
| [] => []
| s :: rest =>
    match dropTrailingBlanks rest with
    | [] => if s.isEmpty then [] else [s]
    | r => s :: r

mutual

/-- `prune` (lines 100-104), applied recursively to the whole tree. -/
def prune : Node → Node
| .mk t lv ch co => .mk t lv (pruneList ch) (dropTrailingBlanks co)

def pruneList : List Node → List Node
| [] => []
| n :: ns => prune n :: pruneList ns

end

/-- `build_tree` up to and including the pruning pass: run the paragraph
loop from the singleton root stack, then close all still-open frames into
the root and prune.  `none` models the Python run raising. -/
def buildRoot (ps : List (Str × Str)) : Option Node :=
  match runSteps [rootFrame] ps with
  | some (f :: fs) => some (prune ((collapseFrames f fs).toNode))
  | _ => none

/-- A node after `assign_ids`: the section node plus its `id` and `path`. -/
inductive INode : Type where
  | mk (id : Str) (title : Str) (level : Nat) (path : List Str)
       (children : List INode) (content : List Str)

def INode.id : INode → Str
| .mk i _ _ _ _ _ => i

def INode.title : INode → Str
| .mk _ t _ _ _ _ => t

def INode.level : INode → Nat
| .mk _ _ l _ _ _ => l

def INode.path : INode → List Str
| .mk _ _ _ p _ _ => p

def INode.children : INode → List INode
| .mk _ _ _ _ ch _ => ch

def INode.content : INode → List Str
| .mk _ _ _ _ _ co => co

/-- The character of a decimal digit. -/
def decChar (d : Nat) : Char := Char.ofNat (48 + d)

/-- Fuel-based decimal rendering, most significant digit first.  The fuel
strictly exceeds the number of digits whenever `n < fuel`. -/
def decReprAux : Nat → Nat → Str
| 0, _ => []
| fuel + 1, n => if n = 0 then [] else decReprAux fuel (n / 10) ++ [decChar (n % 10)]

/-- Decimal digits of a natural number, most significant first (empty for
zero, which the padding below turns into "00000" exactly as `%05d` does). -/
def decRepr (n : Nat) : Str := decReprAux (n + 1) n

/-- `f"n{counter:05d}"` (line 112). -/
def formatId (c : Nat) : Str :=
  'n' :: (List.replicate (5 - (decRepr c).length) '0' ++ decRepr c)

mutual

/-- `assign_ids` (lines 110-118) with the global counter threaded through
explicitly: returns the identified tree and the final counter value. -/
def assignIds : Node → Nat → List Str → INode × Nat
| .mk t lv ch co, c, p =>
    let pth := if 0 < lv then p ++ [t] else [t]
    let r := assignIdsList ch (c + 1) pth
    (.mk (formatId c) t lv pth r.1 co, r.2)

def assignIdsList : List Node → Nat → List Str → List INode × Nat
| [], c, _ => ([], c)
| n :: ns, c, p =>
    let r := assignIds n c p
    let r2 := assignIdsList ns r.2 p
    (r.1 :: r2.1, r2.2)

end

/-- The full tree pipeline of `build_tree` (lines 79-119): build, prune,
assign ids and paths starting from counter 0 and the empty path. -/
def build_tree (ps : List (Str × Str)) : Option INode :=
  match buildRoot ps with
  | some r => some (assignIds r 0 []).1
  | none => none

/-- `escape_js_string`, first replacement: `s.replace("\\", "\\\\")`. -/
def escBackslash : Str → Str
| [] => []
| c :: rest => if c = '\\' then '\\' :: '\\' :: escBackslash rest else c :: escBackslash rest

/-- `escape_js_string`, second replacement: `.replace("</", "<\\/")`,
scanning left to right and resuming after each replacement. -/
def escLtSlash : Str → Str
| [] => []
| [c] => [c]
| c :: d :: rest =>
    if c = '<' ∧ d = '/' then '<' :: '\\' :: '/' :: escLtSlash rest
    else c :: escLtSlash (d :: rest)

/-- `escape_js_string` (lines 122-123). -/
def escape_js_string (s : Str) : Str := escLtSlash (escBackslash s)

/-- Boolean prefix test between character lists. -/
def pfx : Str → Str → Bool
| [], _ => true
| _ :: _, [] => false
| a :: as, b :: bs => a == b && pfx as bs

/-- Split a string at the leftmost occurrence of `pat`: returns the part
before the occurrence and the part after it. -/
def splitFirst (pat : Str) : Str → Option (Str × Str)
| [] => if pat = [] then some ([], []) else none
| c :: rest =>
    if pfx pat (c :: rest) then some ([], (c :: rest).drop pat.length)
    else
      match splitFirst pat rest with
      | some (pre, post) => some (c :: pre, post)
      | none => none

/-- `pat` occurs somewhere in `s`. -/
def occursIn (pat s : Str) : Bool := (splitFirst pat s).isSome

/-- The opening delimiter of the placeholder region (line 146). -/
def openTag : Str := "<script id=\"hne-data\" type=\"application/json\">".data

/-- The closing delimiter of the placeholder region (line 146). -/
def closeTag : Str := "</script>".data

/-- The literal text named by the spec's injection example. -/
def ltScript : Str := "</script".data

/-- Worker for `re.sub` with the placeholder pattern (lines 145-150): find
the leftmost opening tag; the lazy inner group ends at the first following
closing tag; replace the inner text and continue after the match.  The fuel
only bounds the number of matches, which is at most the length of the text
because every match consumes at least one character; with fuel `s.length`
the zero-fuel case is reached only on an empty remainder, so the function
agrees with the unbounded iteration. -/
def substAllFuel (new : Str) : Nat → Str → Str
| 0, s => s
| fuel + 1, s =>
    match splitFirst openTag s with
    | none => s
    | some (pre, afterOpen) =>
        match splitFirst closeTag afterOpen with
        | none => s
        | some (_inner, afterClose) =>
            pre ++ openTag ++ new ++ closeTag ++ substAllFuel new fuel afterClose

/-- The HTML injection step of `main` (lines 144-150), parametrised by the
already-escaped JSON text. -/
def injectJson (new s : Str) : Str := substAllFuel new s.length s

/-! ### Observations and specification predicates -/

/-- No two consecutive entries of the list are both the blank sentinel. -/
def noAdjBlanks : List Str → Bool
| [] => true
| [_] => true
| a :: b :: rest => !(a.isEmpty && b.isEmpty) && noAdjBlanks (b :: rest)

/-- The list does not end with the blank sentinel (vacuously true of the
empty list). -/
def noTrailBlank (l : List Str) : Bool :=
  match lastElem? l with
  | some s => !s.isEmpty
  | none => true

/-- Every node of the list has level strictly above `lv`. -/
def childrenAbove (lv : Nat) : List Node → Bool
| [] => true
| n :: ns => decide (lv < n.level) && childrenAbove lv ns

mutual

/-- Strict hierarchy: every node's level is below all its children's. -/
def strictHierB : Node → Bool
| .mk _ lv ch _ => childrenAbove lv ch && strictHierListB ch

def strictHierListB : List Node → Bool
| [] => true
| n :: ns => strictHierB n && strictHierListB ns

end

mutual

/-- Recursively: no content list has two consecutive blank sentinels. -/
def noAdjB : Node → Bool
| .mk _ _ ch co => noAdjBlanks co && noAdjListB ch

def noAdjListB : List Node → Bool
| [] => true
| n :: ns => noAdjB n && noAdjListB ns

end

mutual

/-- Recursively: no content list has two consecutive blank sentinels or a
trailing blank sentinel. -/
def contentOkB : Node → Bool
| .mk _ _ ch co => noAdjBlanks co && noTrailBlank co && contentOkListB ch

def contentOkListB : List Node → Bool
| [] => true
| n :: ns => contentOkB n && contentOkListB ns

end

mutual

/-- Number of nodes of a tree. -/
def Node.size : Node → Nat
| .mk _ _ ch _ => 1 + sizeList ch

def sizeList : List Node → Nat
| [] => 0
| n :: ns => Node.size n + sizeList ns

end

/-- Number of nodes a frame will contribute once closed. -/
def Frame.sizeF (f : Frame) : Nat := 1 + sizeList f.children

/-- Total number of nodes held by a stack. -/
def stackSize : List Frame → Nat
| [] => 0
| f :: fs => f.sizeF + stackSize fs

/-- The paragraph takes the heading branch of the loop: non-blank text and
a style classified as a nonzero heading level (`if lvl:`). -/
def isHeadingPar (p : Str × Str) : Bool :=
  !isBlank (pyRstrip p.1) &&
    (match heading_level p.2 with
     | some (_ + 1) => true
     | _ => false)

/-- Number of paragraphs taking the heading branch. -/
def countHeadingPars (ps : List (Str × Str)) : Nat := (ps.filter isHeadingPar).length

/-- The style name classifies as a heading (some level, zero included). -/
def classifiesAsHeading (p : Str × Str) : Bool := (heading_level p.2).isSome

/-- Number of paragraphs whose style classifies as a heading. -/
def countClassified (ps : List (Str × Str)) : Nat := (ps.filter classifiesAsHeading).length

/-- Strictly decreasing list of levels (stack top first). -/
def LevelsDesc : List Nat → Prop
| [] => True
| [_] => True
| a :: b :: rest => b < a ∧ LevelsDesc (b :: rest)

/-- Level of the bottom frame of the stack. -/
def lastLevel (st : List Frame) : Option Nat := lastElem? (st.map Frame.level)

/-- Well-formedness of an open frame: completed children sit strictly above
it, are themselves strict hierarchies with well-formed contents, and its own
content has no two consecutive blanks. -/
def FrameOk (f : Frame) : Prop :=
  childrenAbove f.level f.children = true ∧ strictHierListB f.children = true ∧
    noAdjListB f.children = true ∧ noAdjBlanks f.content = true

/-- The builder's loop invariant: levels strictly decrease towards the
bottom of the stack, the bottom frame is the level-0 root, and every frame
is well-formed. -/
def StackInv (st : List Frame) : Prop :=
  LevelsDesc (st.map Frame.level) ∧ lastLevel st = some 0 ∧ ∀ f ∈ st, FrameOk f

mutual

/-- Every node of the forest has a positive level, recursively (the data
model reserves level 0 for the synthetic root). -/
def posLevels : Node → Bool
| .mk _ lv ch _ => decide (0 < lv) && posLevelsList ch

def posLevelsList : List Node → Bool
| [] => true
| n :: ns => posLevels n && posLevelsList ns

end

mutual

/-- The ids of an identified tree in pre-order: parent first, children in
document order. -/
def preIds : INode → List Str
| .mk i _ _ _ ch _ => i :: preIdsList ch

def preIdsList : List INode → List Str
| [] => []
| n :: ns => preIds n ++ preIdsList ns

end

/-- Each listed child's path is the given parent path with the child's own
title appended. -/
def childrenPathOk (pp : List Str) : List INode → Bool
| [] => true
| c :: cs => decide (c.path = pp ++ [c.title]) && childrenPathOk pp cs

mutual

/-- Recursively: every node's children carry the node's path extended with
their own title. -/
def pathsOkB : INode → Bool
| .mk _ _ _ p ch _ => childrenPathOk p ch && pathsOkListB ch

def pathsOkListB : List INode → Bool
| [] => true
| n :: ns => pathsOkB n && pathsOkListB ns

end

/-- Inverse of `formatId`: drop the leading letter and read the decimal
digits back, ignoring the zero padding. -/
def parseBackId (s : Str) : Nat := (s.drop 1).foldl (fun a c => 10 * a + digitVal c) 0

/-- The form the specification ascribes to heading style names: the string
itself is, case-insensitively, "Heading" followed by optional whitespace and
one or more digits, with nothing after the digits; the level is the parsed
number. -/
def specIsHeadingForm (s : Str) (n : Nat) : Prop :=
  ∃ h ws ds : Str,
    s = h ++ ws ++ ds ∧
    h.map Char.toLower = headingWord ∧
    (∀ c ∈ ws, pyIsSpace c = true) ∧
    ds ≠ [] ∧ (∀ c ∈ ds, c.isDigit = true) ∧
    n = parseDigits ds

/-- The string contains the two-character sequence "</". -/
def hasLtSlash : Str → Bool
| [] => false
| [_] => false
| c :: d :: rest => (c == '<' && d == '/') || hasLtSlash (d :: rest)

/-! ### Basic list lemmas -/

theorem lastElem?_cons_of_ne {α : Type} (a : α) (l : List α) (h : l ≠ []) :
    lastElem? (a :: l) = lastElem? l := by
  cases l with
  | nil => exact absurd rfl h
  | cons b t => rfl

theorem lastElem?_append_right {α : Type} : ∀ (xs ys : List α), ys ≠ [] →
    lastElem? (xs ++ ys) = lastElem? ys
| [], _, _ => rfl
| x :: xs, ys, h => by
    rw [List.cons_append, lastElem?_cons_of_ne x (xs ++ ys)
      (fun hc => h (List.append_eq_nil.mp hc).2), lastElem?_append_right xs ys h]

theorem lastElem?_isSome {α : Type} : ∀ (l : List α), l ≠ [] → ∃ x, lastElem? l = some x
| [], h => absurd rfl h
| [a], _ => ⟨a, rfl⟩
| _ :: b :: t, _ => lastElem?_isSome (b :: t) (by simp)

theorem lastElem?_ne_nil {α : Type} : ∀ (l : List α) (x : α), lastElem? l = some x → l ≠ []
| [], _, h => by simp [lastElem?] at h
| _ :: _, _, _ => by simp

theorem lastElem?_map {α β : Type} (f : α → β) : ∀ (l : List α),
    lastElem? (l.map f) = (lastElem? l).map f
| [] => rfl
| [_] => rfl
| _ :: b :: t => lastElem?_map f (b :: t)

theorem mem_takeWhile_true {α : Type} (p : α → Bool) : ∀ (l : List α) (x : α),
    x ∈ l.takeWhile p → p x = true
| [], x, h => by simp [List.takeWhile] at h
| a :: t, x, h => by
    by_cases hpa : p a = true
    · rw [List.takeWhile_cons, if_pos hpa] at h
      rcases List.mem_cons.mp h with h1 | h2
      · exact h1 ▸ hpa
      · exact mem_takeWhile_true p t x h2
    · rw [List.takeWhile_cons, if_neg hpa] at h
      exact absurd h (List.not_mem_nil x)

theorem takeWhile_nil_head {α : Type} (p : α → Bool) (a : α) (t : List α)
    (h : (a :: t).takeWhile p = []) : p a = false := by
  by_cases hpa : p a = true
  · rw [List.takeWhile_cons, if_pos hpa] at h
    exact absurd h (by simp)
  · exact Bool.not_eq_true (p a) ▸ hpa

theorem dropWhile_last {α : Type} (p : α → Bool) : ∀ (l : List α) (x : α),
    lastElem? l = some x → p x = false →
    ∃ y ys, l.dropWhile p = y :: ys ∧ p y = false ∧ lastElem? (y :: ys) = lastElem? l
| [], x, h, _ => by simp [lastElem?] at h
| a :: t, x, h, hpx => by
    by_cases hpa : p a = true
    · have ht : t ≠ [] := by
        intro h0
        subst h0
        have hax : a = x := by simpa [lastElem?] using h
        rw [hax, hpx] at hpa
        exact Bool.noConfusion hpa
      have hlast : lastElem? t = some x := by
        rw [← lastElem?_cons_of_ne a t ht]; exact h
      obtain ⟨y, ys, h1, h2, h3⟩ := dropWhile_last p t x hlast hpx
      refine ⟨y, ys, ?_, h2, ?_⟩
      · rw [List.dropWhile_cons, if_pos hpa]; exact h1
      · rw [h3, lastElem?_cons_of_ne a t ht]
    · have hpa' : p a = false := by revert hpa; cases p a <;> simp
      exact ⟨a, t, by rw [List.dropWhile_cons, if_neg (by simp [hpa'])], hpa', rfl⟩

/-! ### Lemmas about the level chain -/

theorem levelsDesc_tail : ∀ (a : Nat) (l : List Nat), LevelsDesc (a :: l) → LevelsDesc l
| _, [], _ => trivial
| _, _ :: _, h => h.2

theorem levelsDesc_append_right : ∀ (xs ys : List Nat), LevelsDesc (xs ++ ys) → LevelsDesc ys
| [], _, h => h
| x :: xs, ys, h => levelsDesc_append_right xs ys (levelsDesc_tail x (xs ++ ys) h)

theorem levelsDesc_append_left : ∀ (xs ys : List Nat), LevelsDesc (xs ++ ys) → LevelsDesc xs
| [], _, _ => trivial
| [_], _, _ => trivial
| _ :: y :: xs, ys, h => ⟨h.1, levelsDesc_append_left (y :: xs) ys h.2⟩

theorem levelsDesc_boundary : ∀ (xs : List Nat) (b : Nat) (ys : List Nat) (a : Nat),
    LevelsDesc (xs ++ b :: ys) → lastElem? xs = some a → b < a
| [], _, _, _, _, h2 => by simp [lastElem?] at h2
| [x], b, ys, a, h, h2 => by
    have hxa : x = a := by simpa [lastElem?] using h2
    exact hxa ▸ h.1
| _ :: y :: xs, b, ys, a, h, h2 => levelsDesc_boundary (y :: xs) b ys a h.2 h2

/-! ### Lemmas about blank collapsing -/

theorem noAdj_tail : ∀ (a : Str) (l : List Str), noAdjBlanks (a :: l) = true →
    noAdjBlanks l = true
| _, [], _ => rfl
| a, b :: t, h => by
    have : (!(a.isEmpty && b.isEmpty) && noAdjBlanks (b :: t)) = true := h
    exact (Bool.and_eq_true _ _ |>.mp this).2

theorem noAdj_snoc_nonblank : ∀ (l : List Str) (x : Str), noAdjBlanks l = true →
    x.isEmpty = false → noAdjBlanks (l ++ [x]) = true
| [], x, _, _ => rfl
| [a], x, _, hx => by
    show noAdjBlanks [a, x] = true
    simp [noAdjBlanks, hx]
| a :: b :: t, x, h, hx => by
    have h' := noAdj_snoc_nonblank (b :: t) x (noAdj_tail a (b :: t) h) hx
    have hpair : (!(a.isEmpty && b.isEmpty)) = true :=
      (Bool.and_eq_true _ _ |>.mp h).1
    show noAdjBlanks (a :: b :: (t ++ [x])) = true
    calc noAdjBlanks (a :: b :: (t ++ [x]))
        = (!(a.isEmpty && b.isEmpty) && noAdjBlanks (b :: (t ++ [x]))) := rfl
      _ = true := by rw [hpair]; simpa using h'

theorem noAdj_snoc_lastNonblank : ∀ (l : List Str) (x : Str), noAdjBlanks l = true →
    lastIsNonBlank l = true → noAdjBlanks (l ++ [x]) = true
| [], _, _, h2 => by simp [lastIsNonBlank, lastElem?] at h2
| [a], x, _, h2 => by
    have ha : a.isEmpty = false := by
      simpa [lastIsNonBlank, lastElem?] using h2
    show noAdjBlanks [a, x] = true
    simp [noAdjBlanks, ha]
| a :: b :: t, x, h, h2 => by
    have h' := noAdj_snoc_lastNonblank (b :: t) x (noAdj_tail a (b :: t) h) h2
    have hpair : (!(a.isEmpty && b.isEmpty)) = true :=
      (Bool.and_eq_true _ _ |>.mp h).1
    show noAdjBlanks (a :: b :: (t ++ [x])) = true
    calc noAdjBlanks (a :: b :: (t ++ [x]))
        = (!(a.isEmpty && b.isEmpty) && noAdjBlanks (b :: (t ++ [x]))) := rfl
      _ = true := by rw [hpair]; simpa using h'

theorem dTB_shape (s : Str) (rest : List Str) :
    dropTrailingBlanks (s :: rest) = [] ∨
      ∃ r, dropTrailingBlanks (s :: rest) = s :: r := by
  cases hm : dropTrailingBlanks rest with
  | nil =>
      by_cases hs : s.isEmpty = true
      · left; simp [dropTrailingBlanks, hm, hs]
      · right; exact ⟨[], by simp [dropTrailingBlanks, hm, hs]⟩
  | cons t ts =>
      right; exact ⟨t :: ts, by simp [dropTrailingBlanks, hm]⟩

theorem noTrail_dTB : ∀ (l : List Str), noTrailBlank (dropTrailingBlanks l) = true
| [] => rfl
| s :: rest => by
    have ih := noTrail_dTB rest
    cases hm : dropTrailingBlanks rest with
    | nil =>
        by_cases hs : s.isEmpty = true
        · have hshape : dropTrailingBlanks (s :: rest) = [] := by
            simp [dropTrailingBlanks, hm, hs]
          rw [hshape]; rfl
        · have hs' : s.isEmpty = false := by revert hs; cases s.isEmpty <;> simp
          have hshape : dropTrailingBlanks (s :: rest) = [s] := by
            simp [dropTrailingBlanks, hm, hs']
          rw [hshape]
          simp [noTrailBlank, lastElem?, hs']
    | cons t ts =>
        rw [hm] at ih
        have hshape : dropTrailingBlanks (s :: rest) = s :: t :: ts := by
          simp [dropTrailingBlanks, hm]
        rw [hshape]
        exact ih

theorem noAdj_dTB : ∀ (l : List Str), noAdjBlanks l = true →
    noAdjBlanks (dropTrailingBlanks l) = true
| [], _ => rfl
| s :: rest, h => by
    cases hm : dropTrailingBlanks rest with
    | nil =>
        by_cases hs : s.isEmpty = true
        · simp [dropTrailingBlanks, hm, hs, noAdjBlanks]
        · have hs' : s.isEmpty = false := by revert hs; cases s.isEmpty <;> simp
          simp [dropTrailingBlanks, hm, hs', noAdjBlanks]
    | cons t ts =>
        have ih := noAdj_dTB rest (noAdj_tail s rest h)
        rw [hm] at ih
        have hshape : dropTrailingBlanks (s :: rest) = s :: t :: ts := by
          simp [dropTrailingBlanks, hm]
        rw [hshape]
        cases rest with
        | nil => simp [dropTrailingBlanks] at hm
        | cons b rest' =>
            have hbt : b = t := by
              rcases dTB_shape b rest' with h0 | ⟨r, hr⟩
              · rw [h0] at hm; exact absurd hm (by simp)
              · rw [hr] at hm; exact (List.cons.inj hm).1
            have hpair : (!(s.isEmpty && b.isEmpty)) = true :=
              (Bool.and_eq_true _ _ |>.mp h).1
            have ih' : noAdjBlanks (b :: ts) = true := by rw [hbt]; exact ih
            calc noAdjBlanks (s :: t :: ts)
                = (!(s.isEmpty && t.isEmpty) && noAdjBlanks (t :: ts)) := rfl
              _ = true := by rw [← hbt, hpair, ih']; rfl

/-! ### Projection lemmas -/

@[simp] theorem node_title_mk (t : Str) (lv : Nat) (ch : List Node) (co : List Str) :
    Node.title (.mk t lv ch co) = t := rfl

@[simp] theorem node_level_mk (t : Str) (lv : Nat) (ch : List Node) (co : List Str) :
    Node.level (.mk t lv ch co) = lv := rfl

@[simp] theorem node_children_mk (t : Str) (lv : Nat) (ch : List Node) (co : List Str) :
    Node.children (.mk t lv ch co) = ch := rfl

@[simp] theorem node_content_mk (t : Str) (lv : Nat) (ch : List Node) (co : List Str) :
    Node.content (.mk t lv ch co) = co := rfl

@[simp] theorem toNode_title (f : Frame) : f.toNode.title = f.title := rfl

@[simp] theorem toNode_level (f : Frame) : f.toNode.level = f.level := rfl

@[simp] theorem toNode_children (f : Frame) : f.toNode.children = f.children := rfl

@[simp] theorem toNode_content (f : Frame) : f.toNode.content = f.content := rfl

@[simp] theorem size_toNode (f : Frame) : f.toNode.size = f.sizeF := rfl

/-! ### Append lemmas for the node-list predicates -/

theorem childrenAbove_snoc (lv : Nat) : ∀ (l : List Node) (n : Node),
    childrenAbove lv l = true → lv < n.level → childrenAbove lv (l ++ [n]) = true
| [], n, _, hn => by simp [childrenAbove, hn]
| m :: ms, n, h, hn => by
    have h1 : decide (lv < m.level) = true := (Bool.and_eq_true _ _ |>.mp h).1
    have h2 := childrenAbove_snoc lv ms n (Bool.and_eq_true _ _ |>.mp h).2 hn
    show (decide (lv < m.level) && childrenAbove lv (ms ++ [n])) = true
    rw [h1, h2]; rfl

theorem strictHierListB_snoc : ∀ (l : List Node) (n : Node),
    strictHierListB l = true → strictHierB n = true → strictHierListB (l ++ [n]) = true
| [], n, _, hn => by simp [strictHierListB, hn]
| m :: ms, n, h, hn => by
    have h1 : strictHierB m = true := (Bool.and_eq_true _ _ |>.mp h).1
    have h2 := strictHierListB_snoc ms n (Bool.and_eq_true _ _ |>.mp h).2 hn
    show (strictHierB m && strictHierListB (ms ++ [n])) = true
    rw [h1, h2]; rfl

theorem noAdjListB_snoc : ∀ (l : List Node) (n : Node),
    noAdjListB l = true → noAdjB n = true → noAdjListB (l ++ [n]) = true
| [], n, _, hn => by simp [noAdjListB, hn]
| m :: ms, n, h, hn => by
    have h1 : noAdjB m = true := (Bool.and_eq_true _ _ |>.mp h).1
    have h2 := noAdjListB_snoc ms n (Bool.and_eq_true _ _ |>.mp h).2 hn
    show (noAdjB m && noAdjListB (ms ++ [n])) = true
    rw [h1, h2]; rfl

theorem sizeList_snoc : ∀ (l : List Node) (n : Node),
    sizeList (l ++ [n]) = sizeList l + n.size
| [], n => by simp [sizeList]
| m :: ms, n => by
    show m.size + sizeList (ms ++ [n]) = m.size + sizeList ms + n.size
    rw [sizeList_snoc ms n]; omega

theorem stackSize_append : ∀ (xs ys : List Frame),
    stackSize (xs ++ ys) = stackSize xs + stackSize ys
| [], ys => by simp [stackSize]
| f :: fs, ys => by
    show f.sizeF + stackSize (fs ++ ys) = f.sizeF + stackSize fs + stackSize ys
    rw [stackSize_append fs ys]; omega

/-! ### The builder invariant -/

theorem strictHierB_toNode (f : Frame) (h1 : childrenAbove f.level f.children = true)
    (h2 : strictHierListB f.children = true) : strictHierB f.toNode = true := by
  show (childrenAbove f.level f.children && strictHierListB f.children) = true
  rw [h1, h2]; rfl

theorem noAdjB_toNode (f : Frame) (h1 : noAdjBlanks f.content = true)
    (h2 : noAdjListB f.children = true) : noAdjB f.toNode = true := by
  show (noAdjBlanks f.content && noAdjListB f.children) = true
  rw [h1, h2]; rfl

/-- Attaching a well-formed node of strictly higher level to a well-formed
frame keeps the frame well-formed. -/
theorem frameOk_attach (g : Frame) (n : Node) (hok : FrameOk g)
    (hlt : g.level < n.level) (hsh : strictHierB n = true) (hna : noAdjB n = true) :
    FrameOk { g with children := g.children ++ [n] } := by
  obtain ⟨hca, hsl, hnl, hnc⟩ := hok
  exact ⟨childrenAbove_snoc g.level g.children n hca hlt,
    strictHierListB_snoc g.children n hsl hsh,
    noAdjListB_snoc g.children n hnl hna, hnc⟩

theorem collapse_ok : ∀ (fs : List Frame) (f : Frame),
    LevelsDesc ((f :: fs).map Frame.level) →
    (∀ g ∈ f :: fs, FrameOk g) →
    FrameOk (collapseFrames f fs) ∧
      some (collapseFrames f fs).level = lastElem? ((f :: fs).map Frame.level) ∧
      (collapseFrames f fs).sizeF = stackSize (f :: fs)
| [], f, _, hok => by
    refine ⟨hok f (by simp), rfl, ?_⟩
    show f.sizeF = f.sizeF + stackSize []
    simp [stackSize]
| g :: gs, f, hdesc, hok => by
    have hgf : g.level < f.level := hdesc.1
    have hokf := hok f (by simp)
    have hokg := hok g (by simp)
    have hshn : strictHierB f.toNode = true := strictHierB_toNode f hokf.1 hokf.2.1
    have hnan : noAdjB f.toNode = true := noAdjB_toNode f hokf.2.2.2 hokf.2.2.1
    have hokg' : FrameOk { g with children := g.children ++ [f.toNode] } :=
      frameOk_attach g f.toNode hokg (by simpa using hgf) hshn hnan
    have hok' : ∀ x ∈ ({ g with children := g.children ++ [f.toNode] } :: gs), FrameOk x := by
      intro x hx
      rcases List.mem_cons.mp hx with h1 | h2
      · exact h1 ▸ hokg'
      · exact hok x (by simp [h2])
    have ih := collapse_ok gs { g with children := g.children ++ [f.toNode] } hdesc.2 hok'
    refine ⟨ih.1, ?_, ?_⟩
    · exact ih.2.1
    · have hsz := ih.2.2
      have h1 : Frame.sizeF { g with children := g.children ++ [f.toNode] } =
          g.sizeF + f.sizeF := by
        show 1 + sizeList (g.children ++ [f.toNode]) = (1 + sizeList g.children) + f.sizeF
        rw [sizeList_snoc]
        simp only [size_toNode]
        omega
      show (collapseFrames f (g :: gs)).sizeF =
        f.sizeF + (g.sizeF + stackSize gs)
      calc (collapseFrames f (g :: gs)).sizeF
          = (collapseFrames { g with children := g.children ++ [f.toNode] } gs).sizeF := rfl
        _ = stackSize ({ g with children := g.children ++ [f.toNode] } :: gs) := hsz
        _ = g.sizeF + f.sizeF + stackSize gs := by
            show Frame.sizeF { g with children := g.children ++ [f.toNode] } + stackSize gs = _
            rw [h1]
        _ = f.sizeF + (g.sizeF + stackSize gs) := by omega

theorem popGE_spec (lvl : Nat) (st : List Frame) (hpos : 1 ≤ lvl) (hinv : StackInv st) :
    ∃ g gs, popGE lvl st = g :: gs ∧ StackInv (g :: gs) ∧ g.level < lvl ∧
      stackSize (g :: gs) = stackSize st ∧
      lastLevel (g :: gs) = lastLevel st := by
  obtain ⟨hdesc, hlast, hok⟩ := hinv
  have hst : st ≠ [] := by
    intro h0
    rw [h0] at hlast
    simp [lastLevel, lastElem?] at hlast
  obtain ⟨f0, hf0, hf0lvl⟩ : ∃ f0, lastElem? st = some f0 ∧ f0.level = 0 := by
    obtain ⟨f0, hf0⟩ := lastElem?_isSome st hst
    refine ⟨f0, hf0, ?_⟩
    have := lastElem?_map Frame.level st
    rw [hf0] at this
    rw [lastLevel] at hlast
    rw [this] at hlast
    simpa using hlast
  have hp0 : (fun f => decide (lvl ≤ f.level)) f0 = false := by
    simp [hf0lvl]; omega
  cases htw : st.takeWhile (fun f => decide (lvl ≤ f.level)) with
  | nil =>
      obtain ⟨g, gs, hst'⟩ : ∃ g gs, st = g :: gs := by
        cases st with
        | nil => exact absurd rfl hst
        | cons a t => exact ⟨a, t, rfl⟩
      subst hst'
      have hglt : g.level < lvl := by
        have := takeWhile_nil_head (fun f => decide (lvl ≤ f.level)) g gs htw
        simpa using this
      refine ⟨g, gs, ?_, ⟨hdesc, hlast, hok⟩, hglt, rfl, rfl⟩
      rw [popGE, htw]
  | cons f fs =>
      obtain ⟨y, ys, hdw, hpy, hylast⟩ :=
        dropWhile_last (fun f => decide (lvl ≤ f.level)) st f0 hf0 hp0
      have hsplit : (f :: fs) ++ (y :: ys) = st := by
        rw [← htw, ← hdw]
        exact List.takeWhile_append_dropWhile _ st
      have hdesc2 : LevelsDesc (((f :: fs) ++ (y :: ys)).map Frame.level) := by
        rw [hsplit]; exact hdesc
      have hokall : ∀ x ∈ (f :: fs) ++ (y :: ys), FrameOk x := by
        intro x hx; exact hok x (hsplit ▸ hx)
      have hdescL : LevelsDesc ((f :: fs).map Frame.level) := by
        have := hdesc2
        rw [List.map_append] at this
        exact levelsDesc_append_left _ _ this
      have hokL : ∀ x ∈ f :: fs, FrameOk x := fun x hx =>
        hokall x (List.mem_append.mpr (Or.inl hx))
      obtain ⟨hokC, hlvlC, hszC⟩ := collapse_ok fs f hdescL hokL
      obtain ⟨a, ha⟩ := lastElem?_isSome ((f :: fs).map Frame.level) (by simp)
      have hCa : (collapseFrames f fs).level = a := by
        rw [ha] at hlvlC
        exact Option.some.inj hlvlC
      have hya : y.level < a := by
        have hb : LevelsDesc ((f :: fs).map Frame.level ++ y.level :: (ys.map Frame.level)) := by
          have := hdesc2
          rw [List.map_append] at this
          simpa using this
        exact levelsDesc_boundary _ _ _ a hb ha
      have hCgt : y.level < (collapseFrames f fs).level := by rw [hCa]; exact hya
      -- the result
      have hres : popGE lvl st =
          { y with children := y.children ++ [(collapseFrames f fs).toNode] } :: ys := by
        rw [popGE, htw, hdw]
        rfl
      have hylvl : y.level < lvl := by simpa using hpy
      -- invariant of the result
      have hdescR : LevelsDesc ((y :: ys).map Frame.level) := by
        have := hdesc2
        rw [List.map_append] at this
        exact levelsDesc_append_right _ _ this
      have hokR : FrameOk { y with children := y.children ++ [(collapseFrames f fs).toNode] } := by
        refine frameOk_attach y (collapseFrames f fs).toNode
          (hokall y (by simp)) (by simpa using hCgt) ?_ ?_
        · exact strictHierB_toNode _ hokC.1 hokC.2.1
        · exact noAdjB_toNode _ hokC.2.2.2 hokC.2.2.1
      refine ⟨_, ys, hres, ⟨?_, ?_, ?_⟩, by simpa using hylvl, ?_, ?_⟩
      · -- LevelsDesc of the new stack: levels unchanged from y :: ys
        exact hdescR
      · -- lastLevel = some 0
        have h1 : lastElem? ((y :: ys).map Frame.level) = some 0 := by
          rw [lastLevel, ← hsplit, List.map_append] at hlast
          rwa [lastElem?_append_right ((f :: fs).map Frame.level) ((y :: ys).map Frame.level)
            (by simp)] at hlast
        exact h1
      · intro x hx
        rcases List.mem_cons.mp hx with h1 | h2
        · exact h1 ▸ hokR
        · exact hokall x (List.mem_append.mpr (Or.inr (by simp [h2])))
      · -- sizes
        have h1 : Frame.sizeF { y with children := y.children ++ [(collapseFrames f fs).toNode] } =
            y.sizeF + stackSize (f :: fs) := by
          show 1 + sizeList (y.children ++ [(collapseFrames f fs).toNode]) = (1 + sizeList y.children) + stackSize (f :: fs)
          rw [sizeList_snoc, size_toNode, hszC]
          omega
        show Frame.sizeF _ + stackSize ys = stackSize st
        rw [h1, ← hsplit, stackSize_append]
        show y.sizeF + stackSize (f :: fs) + stackSize ys =
          stackSize (f :: fs) + (y.sizeF + stackSize ys)
        omega
      · -- lastLevel preserved
        show lastElem? _ = lastLevel st
        rw [lastLevel, ← hsplit, List.map_append,
          lastElem?_append_right ((f :: fs).map Frame.level) ((y :: ys).map Frame.level) (by simp)]
        rfl

theorem step_spec (st : List Frame) (p : Str × Str) (hinv : StackInv st) :
    ∃ st', step st p = some st' ∧ StackInv st' ∧
      stackSize st' = stackSize st + (if isHeadingPar p then 1 else 0) := by
  obtain ⟨hdesc, hlast, hok⟩ := hinv
  have hst : st ≠ [] := by
    intro h0; rw [h0] at hlast; simp [lastLevel, lastElem?] at hlast
  obtain ⟨f, rest, hst'⟩ : ∃ f rest, st = f :: rest := by
    cases st with
    | nil => exact absurd rfl hst
    | cons a t => exact ⟨a, t, rfl⟩
  subst hst'
  have hokf := hok f (by simp)
  by_cases hb : isBlank (pyRstrip p.1) = true
  · -- blank branch
    have hhp : isHeadingPar p = false := by simp [isHeadingPar, hb]
    rw [hhp]
    by_cases hg : lastIsNonBlank f.content = true
    · refine ⟨{ f with content := f.content ++ [[]] } :: rest, ?_, ⟨hdesc, hlast, ?_⟩, ?_⟩
      · simp [step, hb, hg]
      · intro x hx
        rcases List.mem_cons.mp hx with h1 | h2
        · subst h1
          exact ⟨hokf.1, hokf.2.1, hokf.2.2.1,
            noAdj_snoc_lastNonblank f.content [] hokf.2.2.2 hg⟩
        · exact hok x (by simp [h2])
      · show Frame.sizeF _ + stackSize rest = f.sizeF + stackSize rest + 0
        show (1 + sizeList f.children) + stackSize rest = f.sizeF + stackSize rest + 0
        show f.sizeF + stackSize rest = f.sizeF + stackSize rest + 0
        omega
    · have hg' : lastIsNonBlank f.content = false := by
        revert hg; cases lastIsNonBlank f.content <;> simp
      refine ⟨f :: rest, ?_, ⟨hdesc, hlast, hok⟩, by simp⟩
      simp [step, hb, hg']
  · -- non-blank: heading or content
    have hb' : isBlank (pyRstrip p.1) = false := by
      revert hb; cases isBlank (pyRstrip p.1) <;> simp
    cases hh : heading_level p.2 with
    | some lvl =>
        cases lvl with
        | succ l =>
            -- heading branch
            have hhp : isHeadingPar p = true := by simp [isHeadingPar, hb', hh]
            rw [hhp]
            obtain ⟨g, gs, hpop, hinv', hglt, hsz, hll⟩ :=
              popGE_spec (l + 1) (f :: rest) (by omega) ⟨hdesc, hlast, hok⟩
            refine ⟨⟨pyStrip (pyRstrip p.1), l + 1, [], []⟩ :: g :: gs, ?_, ⟨?_, ?_, ?_⟩, ?_⟩
            · simp [step, hb', hh, hpop]
            · show LevelsDesc ((l + 1) :: g.level :: gs.map Frame.level)
              exact ⟨hglt, hinv'.1⟩
            · show lastElem? (g.level :: gs.map Frame.level) = some 0
              exact hll.trans hlast
            · intro x hx
              rcases List.mem_cons.mp hx with h1 | h2
              · subst h1; exact ⟨rfl, rfl, rfl, rfl⟩
              · exact hinv'.2.2 x h2
            · show Frame.sizeF _ + stackSize (g :: gs) = stackSize (f :: rest) + 1
              show (1 + sizeList []) + stackSize (g :: gs) = stackSize (f :: rest) + 1
              rw [hsz]
              show 1 + 0 + stackSize (f :: rest) = stackSize (f :: rest) + 1
              omega
        | zero =>
            -- `if lvl:` is false for level 0: content branch
            have hhp : isHeadingPar p = false := by simp [isHeadingPar, hb', hh]
            rw [hhp]
            have htE : (pyRstrip p.1).isEmpty = false := by
              cases hq : pyRstrip p.1 with
              | nil => rw [hq] at hb'; exact absurd hb' (by simp [isBlank])
              | cons c t => rfl
            refine ⟨{ f with content := f.content ++ [pyRstrip p.1] } :: rest, ?_,
              ⟨hdesc, hlast, ?_⟩, ?_⟩
            · simp [step, hb', hh]
            · intro x hx
              rcases List.mem_cons.mp hx with h1 | h2
              · subst h1
                exact ⟨hokf.1, hokf.2.1, hokf.2.2.1,
                  noAdj_snoc_nonblank f.content (pyRstrip p.1) hokf.2.2.2 htE⟩
              · exact hok x (by simp [h2])
            · show Frame.sizeF _ + stackSize rest = f.sizeF + stackSize rest + 0
              show f.sizeF + stackSize rest = f.sizeF + stackSize rest + 0
              omega
    | none =>
        have hhp : isHeadingPar p = false := by simp [isHeadingPar, hb', hh]
        rw [hhp]
        have htE : (pyRstrip p.1).isEmpty = false := by
          cases hq : pyRstrip p.1 with
          | nil => rw [hq] at hb'; exact absurd hb' (by simp [isBlank])
          | cons c t => rfl
        refine ⟨{ f with content := f.content ++ [pyRstrip p.1] } :: rest, ?_,
          ⟨hdesc, hlast, ?_⟩, ?_⟩
        · simp [step, hb', hh]
        · intro x hx
          rcases List.mem_cons.mp hx with h1 | h2
          · subst h1
            exact ⟨hokf.1, hokf.2.1, hokf.2.2.1,
              noAdj_snoc_nonblank f.content (pyRstrip p.1) hokf.2.2.2 htE⟩
          · exact hok x (by simp [h2])
        · show Frame.sizeF _ + stackSize rest = f.sizeF + stackSize rest + 0
          show f.sizeF + stackSize rest = f.sizeF + stackSize rest + 0
          omega

theorem runSteps_spec : ∀ (ps : List (Str × Str)) (st : List Frame), StackInv st →
    ∃ st', runSteps st ps = some st' ∧ StackInv st' ∧
      stackSize st' = stackSize st + countHeadingPars ps
| [], st, hinv => ⟨st, rfl, hinv, by simp [countHeadingPars]⟩
| p :: ps, st, hinv => by
    obtain ⟨st1, h1, hinv1, hsz1⟩ := step_spec st p hinv
    obtain ⟨st2, h2, hinv2, hsz2⟩ := runSteps_spec ps st1 hinv1
    refine ⟨st2, ?_, hinv2, ?_⟩
    · have heq : runSteps st (p :: ps) = runSteps st1 ps := by
        show (match step st p with
          | none => none
          | some st' => runSteps st' ps) = runSteps st1 ps
        rw [h1]
      rw [heq]; exact h2
    · rw [hsz2, hsz1]
      have hc : countHeadingPars (p :: ps) =
          (if isHeadingPar p then 1 else 0) + countHeadingPars ps := by
        by_cases hp : isHeadingPar p = true
        · simp [countHeadingPars, List.filter_cons, hp]; omega
        · simp [countHeadingPars, List.filter_cons, hp]
      rw [hc]
      omega

theorem stackInv_init : StackInv [rootFrame] := by
  refine ⟨trivial, rfl, ?_⟩
  intro f hf
  have hf' : f = rootFrame := by simpa using hf
  subst hf'
  exact ⟨rfl, rfl, rfl, rfl⟩

/-! ### Pruning preserves the structural invariants -/

theorem prune_level : ∀ (n : Node), (prune n).level = n.level
| .mk _ _ _ _ => rfl

mutual

theorem prune_size : ∀ (n : Node), (prune n).size = n.size
| .mk _ _ ch _ => by
    show 1 + sizeList (pruneList ch) = 1 + sizeList ch
    rw [pruneList_size ch]

theorem pruneList_size : ∀ (ns : List Node), sizeList (pruneList ns) = sizeList ns
| [] => rfl
| n :: ns => by
    show (prune n).size + sizeList (pruneList ns) = n.size + sizeList ns
    rw [prune_size n, pruneList_size ns]

end

theorem childrenAbove_pruneList (lv : Nat) : ∀ (ns : List Node),
    childrenAbove lv (pruneList ns) = childrenAbove lv ns
| [] => rfl
| n :: ns => by
    show (decide (lv < (prune n).level) && childrenAbove lv (pruneList ns)) = _
    rw [prune_level n, childrenAbove_pruneList lv ns]
    rfl

mutual

theorem prune_strict : ∀ (n : Node), strictHierB n = true → strictHierB (prune n) = true
| .mk _ lv ch _, h => by
    have h1 : childrenAbove lv ch = true := (Bool.and_eq_true _ _ |>.mp h).1
    have h2 : strictHierListB ch = true := (Bool.and_eq_true _ _ |>.mp h).2
    show (childrenAbove lv (pruneList ch) && strictHierListB (pruneList ch)) = true
    rw [childrenAbove_pruneList lv ch, h1, pruneList_strict ch h2]; rfl

theorem pruneList_strict : ∀ (ns : List Node), strictHierListB ns = true →
    strictHierListB (pruneList ns) = true
| [], _ => rfl
| n :: ns, h => by
    show (strictHierB (prune n) && strictHierListB (pruneList ns)) = true
    rw [prune_strict n (Bool.and_eq_true _ _ |>.mp h).1,
      pruneList_strict ns (Bool.and_eq_true _ _ |>.mp h).2]; rfl

end

mutual

theorem prune_contentOk : ∀ (n : Node), noAdjB n = true → contentOkB (prune n) = true
| .mk _ _ ch co, h => by
    have h1 : noAdjBlanks co = true := (Bool.and_eq_true _ _ |>.mp h).1
    have h2 : noAdjListB ch = true := (Bool.and_eq_true _ _ |>.mp h).2
    show ((noAdjBlanks (dropTrailingBlanks co) && noTrailBlank (dropTrailingBlanks co)) &&
      contentOkListB (pruneList ch)) = true
    rw [noAdj_dTB co h1, noTrail_dTB co, pruneList_contentOk ch h2]; rfl

theorem pruneList_contentOk : ∀ (ns : List Node), noAdjListB ns = true →
    contentOkListB (pruneList ns) = true
| [], _ => rfl
| n :: ns, h => by
    show (contentOkB (prune n) && contentOkListB (pruneList ns)) = true
    rw [prune_contentOk n (Bool.and_eq_true _ _ |>.mp h).1,
      pruneList_contentOk ns (Bool.and_eq_true _ _ |>.mp h).2]; rfl

end

theorem node_size_eq (n : Node) : n.size = 1 + sizeList n.children := by
  cases n; rfl

/-- Master specification of the builder: the run always succeeds, and the
pruned root is a strict hierarchy with well-formed contents, level 0, and
one node per heading paragraph plus the root. -/
theorem buildRoot_spec (ps : List (Str × Str)) :
    ∃ r, buildRoot ps = some r ∧ strictHierB r = true ∧ contentOkB r = true ∧
      r.size = 1 + countHeadingPars ps ∧ r.level = 0 := by
  obtain ⟨st', h1, ⟨hdesc, hlast, hok⟩, hsz⟩ :=
    runSteps_spec ps [rootFrame] stackInv_init
  obtain ⟨f, fs, hst'⟩ : ∃ f fs, st' = f :: fs := by
    cases st' with
    | nil => simp [lastLevel, lastElem?] at hlast
    | cons a t => exact ⟨a, t, rfl⟩
  subst hst'
  obtain ⟨hokC, hlvlC, hszC⟩ := collapse_ok fs f hdesc hok
  have hC0 : (collapseFrames f fs).level = 0 := by
    rw [lastLevel] at hlast
    rw [hlast] at hlvlC
    exact Option.some.inj hlvlC
  refine ⟨prune (collapseFrames f fs).toNode, ?_, ?_, ?_, ?_, ?_⟩
  · show buildRoot ps = _
    rw [buildRoot, h1]
  · exact prune_strict _ (strictHierB_toNode _ hokC.1 hokC.2.1)
  · exact prune_contentOk _ (noAdjB_toNode _ hokC.2.2.2 hokC.2.2.1)
  · rw [prune_size, size_toNode, hszC, hsz]
    show stackSize [rootFrame] + countHeadingPars ps = 1 + countHeadingPars ps
    show rootFrame.sizeF + stackSize [] + countHeadingPars ps = 1 + countHeadingPars ps
    show (1 + sizeList []) + stackSize [] + countHeadingPars ps = 1 + countHeadingPars ps
    show (1 + 0) + 0 + countHeadingPars ps = 1 + countHeadingPars ps
    omega
  · rw [prune_level, toNode_level, hC0]

/-! ### The heading classifier against the spec's pattern -/

theorem digit_not_space (c : Char) (h : c.isDigit = true) : pyIsSpace c = false := by
  cases hsp : pyIsSpace c
  · rfl
  · exfalso
    have hc : c = ' ' ∨ c = '\t' ∨ c = '\n' ∨ c = '\r' ∨ c = '\x0b' ∨ c = '\x0c' := by
      revert hsp
      simp [pyIsSpace]
      intro h'
      tauto
    rcases hc with h1 | h1 | h1 | h1 | h1 | h1 <;> (subst h1; exact absurd h (by decide))

theorem take_len_append {α : Type} : ∀ (l t : List α), (l ++ t).take l.length = l
| [], _ => rfl
| a :: l, t => by
    show a :: (l ++ t).take l.length = a :: l
    rw [take_len_append l t]

theorem drop_len_append {α : Type} : ∀ (l t : List α), (l ++ t).drop l.length = t
| [], _ => rfl
| _ :: l, t => drop_len_append l t

theorem dropWhile_space_append : ∀ (ws ds : Str), (∀ c ∈ ws, pyIsSpace c = true) →
    (ws ++ ds).dropWhile pyIsSpace = ds.dropWhile pyIsSpace
| [], _, _ => rfl
| w :: ws, ds, h => by
    rw [List.cons_append, List.dropWhile_cons, if_pos (h w (by simp))]
    exact dropWhile_space_append ws ds (fun c hc => h c (by simp [hc]))

theorem heading_level_def (s : Str) :
    heading_level s =
      if ((pyStrip s).take 7).map Char.toLower = headingWord then
        if ((pyStrip s).drop 7).dropWhile pyIsSpace ≠ [] ∧
            (((pyStrip s).drop 7).dropWhile pyIsSpace).all Char.isDigit = true then
          some (parseDigits (((pyStrip s).drop 7).dropWhile pyIsSpace))
        else none
      else none := rfl

/-- The classifier accepts exactly the stripped style names of the spec's
"Heading" pattern, with the parsed number as level. -/
theorem heading_level_eq_iff (s : Str) (n : Nat) :
    heading_level s = some n ↔ specIsHeadingForm (pyStrip s) n := by
  rw [heading_level_def]
  constructor
  · intro h
    by_cases hA : ((pyStrip s).take 7).map Char.toLower = headingWord
    · rw [if_pos hA] at h
      by_cases hB : ((pyStrip s).drop 7).dropWhile pyIsSpace ≠ [] ∧
          (((pyStrip s).drop 7).dropWhile pyIsSpace).all Char.isDigit = true
      · rw [if_pos hB] at h
        have hn : n = parseDigits (((pyStrip s).drop 7).dropWhile pyIsSpace) :=
          (Option.some.inj h).symm
        refine ⟨(pyStrip s).take 7, ((pyStrip s).drop 7).takeWhile pyIsSpace,
          ((pyStrip s).drop 7).dropWhile pyIsSpace, ?_, hA, ?_, hB.1, ?_, hn⟩
        · rw [List.append_assoc, List.takeWhile_append_dropWhile, List.take_append_drop]
        · intro c hc
          exact mem_takeWhile_true pyIsSpace _ c hc
        · intro c hc
          exact List.all_eq_true.mp hB.2 c hc
      · rw [if_neg hB] at h
        exact absurd h (by simp)
    · rw [if_neg hA] at h
      exact absurd h (by simp)
  · rintro ⟨h7, ws, ds, heq, hmap, hws, hne, hdig, hn⟩
    have hlen : h7.length = 7 := by
      have := congrArg List.length hmap
      simpa [headingWord] using this
    have htake : (pyStrip s).take 7 = h7 := by
      rw [heq, ← hlen, List.append_assoc, take_len_append]
    have hdrop : (pyStrip s).drop 7 = ws ++ ds := by
      rw [heq, ← hlen, List.append_assoc, drop_len_append]
    have hdw : ((pyStrip s).drop 7).dropWhile pyIsSpace = ds := by
      rw [hdrop, dropWhile_space_append ws ds hws]
      cases ds with
      | nil => rfl
      | cons d ds' =>
          rw [List.dropWhile_cons,
            if_neg (by rw [digit_not_space d (hdig d (by simp))]; simp)]
    rw [if_pos (by rw [htake]; exact hmap)]
    rw [if_pos (by rw [hdw]; exact ⟨hne, List.all_eq_true.mpr hdig⟩)]
    rw [hdw, hn]

/-! ### The escaping function never leaves "</" -/

theorem hasLtSlash_cons_ne (c : Char) (l : Str) (hc : c ≠ '<') :
    hasLtSlash (c :: l) = hasLtSlash l := by
  cases l with
  | nil => rfl
  | cons d t =>
      show ((c == '<' && d == '/') || hasLtSlash (d :: t)) = hasLtSlash (d :: t)
      have h1 : (c == '<') = false := by simp [hc]
      rw [h1]
      simp

theorem hasLtSlash_cons_headne (c : Char) (l : Str)
    (hl : hasLtSlash l = false)
    (hhead : ∀ x, l.head? = some x → x ≠ '/') :
    hasLtSlash (c :: l) = false := by
  cases l with
  | nil => rfl
  | cons d t =>
      have hd : d ≠ '/' := hhead d rfl
      show ((c == '<' && d == '/') || hasLtSlash (d :: t)) = false
      have h1 : (d == '/') = false := by simp [hd]
      rw [h1, hl]
      simp

theorem escLtSlash_head : ∀ (d : Char) (rest : Str),
    (escLtSlash (d :: rest)).head? = some d ∨ (escLtSlash (d :: rest)).head? = some '<'
| _, [] => Or.inl rfl
| d, e :: r => by
    by_cases h : d = '<' ∧ e = '/'
    · right
      rw [escLtSlash, if_pos h]
      rfl
    · left
      rw [escLtSlash, if_neg h]
      rfl

theorem escLtSlash_no : ∀ (s : Str), hasLtSlash (escLtSlash s) = false
| [] => rfl
| [_] => rfl
| c :: d :: rest => by
    by_cases h : c = '<' ∧ d = '/'
    · rw [escLtSlash, if_pos h]
      have ih := escLtSlash_no rest
      have h1 : hasLtSlash ('/' :: escLtSlash rest) = false := by
        rw [hasLtSlash_cons_ne '/' (escLtSlash rest) (by decide)]
        exact ih
      have h2 : hasLtSlash ('\\' :: '/' :: escLtSlash rest) = false := by
        show ((('\\' : Char) == '<' && (('/' : Char) == '/')) ||
          hasLtSlash ('/' :: escLtSlash rest)) = false
        rw [h1, show (('\\' : Char) == '<') = false from by decide]
        rfl
      show ((('<' : Char) == '<' && (('\\' : Char) == '/')) ||
        hasLtSlash ('\\' :: '/' :: escLtSlash rest)) = false
      rw [h2, show (('\\' : Char) == '/') = false from by decide]
      simp
    · rw [escLtSlash, if_neg h]
      have ih := escLtSlash_no (d :: rest)
      by_cases hc : c = '<'
      · have hd : d ≠ '/' := by
          intro hd0
          exact h ⟨hc, hd0⟩
        refine hasLtSlash_cons_headne c (escLtSlash (d :: rest)) ih ?_
        intro x hx
        rcases escLtSlash_head d rest with h1 | h1
        · rw [h1] at hx
          intro h0
          exact hd ((Option.some.inj hx).trans h0)
        · rw [h1] at hx
          intro h0
          have h2 : ('<' : Char) = '/' := (Option.some.inj hx).trans h0
          exact absurd h2 (by decide)
      · rw [hasLtSlash_cons_ne c _ hc]
        exact ih

theorem hasLtSlash_append_pattern : ∀ (u v : Str), hasLtSlash (u ++ '<' :: '/' :: v) = true
| [], v => by
    show ((('<' : Char) == '<' && (('/' : Char) == '/')) || hasLtSlash ('/' :: v)) = true
    rw [show ((('<' : Char) == '<' && (('/' : Char) == '/'))) = true from by decide]
    simp
| c :: u, v => by
    have ih := hasLtSlash_append_pattern u v
    rw [List.cons_append]
    cases hu : u ++ '<' :: '/' :: v with
    | nil => simp at hu
    | cons w ws =>
        rw [hu] at ih
        show ((c == '<' && w == '/') || hasLtSlash (w :: ws)) = true
        rw [ih]
        simp

/-! ### The injection step -/

theorem pfx_append_self : ∀ (l t : Str), pfx l (l ++ t) = true
| [], _ => rfl
| a :: l, t => by
    show ((a == a) && pfx l (l ++ t)) = true
    rw [pfx_append_self l t]
    simp

theorem pfx_iff : ∀ (pat s : Str), pfx pat s = true ↔ ∃ t, s = pat ++ t
| [], s => ⟨fun _ => ⟨s, rfl⟩, fun _ => rfl⟩
| a :: pat, [] => by
    constructor
    · intro h
      exact absurd h (by simp [pfx])
    · rintro ⟨t, ht⟩
      simp at ht
| a :: pat, b :: s => by
    constructor
    · intro h
      have h1 : (a == b) = true ∧ pfx pat s = true := by
        simpa [pfx, Bool.and_eq_true] using h
      obtain ⟨t, ht⟩ := (pfx_iff pat s).mp h1.2
      have hab : a = b := by simpa using h1.1
      refine ⟨t, ?_⟩
      rw [ht, ← hab]
      rfl
    · rintro ⟨t, ht⟩
      have hab : b = a := (List.cons.inj ht).1
      have hs : s = pat ++ t := (List.cons.inj ht).2
      show ((a == b) && pfx pat s) = true
      rw [hab, (pfx_iff pat s).mpr ⟨t, hs⟩]
      simp

theorem splitFirst_of_pfx (pat s : Str) (hne : pat ≠ []) (h : pfx pat s = true) :
    splitFirst pat s = some ([], s.drop pat.length) := by
  cases s with
  | nil =>
      obtain ⟨t, ht⟩ := (pfx_iff pat []).mp h
      exact absurd (List.append_eq_nil.mp ht.symm).1 hne
  | cons c rest =>
      rw [splitFirst, if_pos h]

theorem splitFirst_eq : ∀ (pat s pre post : Str), splitFirst pat s = some (pre, post) →
    s = pre ++ pat ++ post
| pat, [], pre, post, h => by
    by_cases hp : pat = []
    · subst hp
      rw [splitFirst, if_pos rfl] at h
      have h1 : ([] : Str) = pre ∧ ([] : Str) = post := by
        have := Option.some.inj h
        exact ⟨congrArg Prod.fst this, congrArg Prod.snd this⟩
      rw [← h1.1, ← h1.2]
      rfl
    · rw [splitFirst, if_neg hp] at h
      exact absurd h (by simp)
| pat, c :: rest, pre, post, h => by
    rw [splitFirst] at h
    by_cases hp : pfx pat (c :: rest) = true
    · rw [if_pos hp] at h
      obtain ⟨t, ht⟩ := (pfx_iff pat (c :: rest)).mp hp
      have h1 : ([] : Str) = pre ∧ (c :: rest).drop pat.length = post := by
        have := Option.some.inj h
        exact ⟨congrArg Prod.fst this, congrArg Prod.snd this⟩
      have hdrop : (c :: rest).drop pat.length = t := by
        rw [ht, drop_len_append]
      rw [← h1.1, ← h1.2, hdrop, ht]
      rfl
    · rw [if_neg hp] at h
      cases hsf : splitFirst pat rest with
      | none => rw [hsf] at h; exact absurd h (by simp)
      | some pr =>
          rw [hsf] at h
          have ih := splitFirst_eq pat rest pr.1 pr.2 (by rw [hsf])
          have h1 : c :: pr.1 = pre ∧ pr.2 = post := by
            have := Option.some.inj h
            exact ⟨congrArg Prod.fst this, congrArg Prod.snd this⟩
          rw [← h1.1, ← h1.2, ih]
          simp

theorem occursIn_of_pfx (pat s : Str) (hne : pat ≠ []) (h : pfx pat s = true) :
    occursIn pat s = true := by
  rw [occursIn, splitFirst_of_pfx pat s hne h]
  rfl

theorem occursIn_cons_of (pat : Str) (c : Char) (rest : Str)
    (h : occursIn pat rest = true) : occursIn pat (c :: rest) = true := by
  rw [occursIn, splitFirst]
  by_cases hp : pfx pat (c :: rest) = true
  · rw [if_pos hp]; rfl
  · rw [if_neg hp]
    rw [occursIn] at h
    cases hsf : splitFirst pat rest with
    | none => rw [hsf] at h; exact absurd h (by simp)
    | some pr => rfl

theorem take_append_le {α : Type} : ∀ (n : Nat) (l t : List α), n ≤ l.length →
    (l ++ t).take n = l.take n
| 0, _, _, _ => rfl
| n + 1, [], t, h => by simp at h
| n + 1, a :: l, t, h => by
    show a :: (l ++ t).take n = a :: l.take n
    rw [take_append_le n l t (by simpa using h)]

theorem drop_append_le {α : Type} : ∀ (n : Nat) (l t : List α), n ≤ l.length →
    (l ++ t).drop n = l.drop n ++ t
| 0, _, _, _ => rfl
| n + 1, [], t, h => by simp at h
| n + 1, a :: l, t, h => drop_append_le n l t (by simpa using h)

theorem closeTag_len : closeTag.length = 9 := rfl

theorem closeTag_ne_nil : closeTag ≠ [] := by decide

theorem close_border : ∀ (k : Nat), 1 ≤ k → k < 9 → closeTag.take (9 - k) ≠ closeTag.drop k := by
  intro k h1 h2
  interval_cases k <;> decide

/-- The leftmost occurrence of the closing tag in `inner ++ closeTag ++ post`
is the explicit one, provided the closing tag does not occur in `inner`:
no occurrence can straddle the boundary because `"</script>"` has no
nontrivial border. -/
theorem splitFirst_close : ∀ (inner post : Str), occursIn closeTag inner = false →
    splitFirst closeTag (inner ++ (closeTag ++ post)) = some (inner, post)
| [], post, _ => by
    show splitFirst closeTag (closeTag ++ post) = some ([], post)
    rw [splitFirst_of_pfx closeTag (closeTag ++ post) closeTag_ne_nil
      (pfx_append_self closeTag post), drop_len_append]
| c :: inner', post, hocc => by
    have hocc' : occursIn closeTag inner' = false := by
      cases ho : occursIn closeTag inner'
      · rfl
      · exact absurd (occursIn_cons_of closeTag c inner' ho) (by rw [hocc]; simp)
    have hnp : ¬ pfx closeTag (c :: (inner' ++ (closeTag ++ post))) = true := by
      intro hq
      obtain ⟨t, ht0⟩ := (pfx_iff _ _).mp hq
      have ht : (c :: inner') ++ (closeTag ++ post) = closeTag ++ t := by
        rw [List.cons_append]; exact ht0
      by_cases hk : 9 ≤ (c :: inner').length
      · -- an occurrence at position 0 would lie inside c :: inner'
        have h1 := congrArg (List.take 9) ht
        rw [take_append_le 9 (c :: inner') (closeTag ++ post) hk,
          take_append_le 9 closeTag t (Nat.le_of_eq closeTag_len.symm)] at h1
        have h2 : (c :: inner').take 9 = closeTag :=
          h1.trans (rfl : closeTag.take 9 = closeTag)
        have hpfx2 : pfx closeTag (c :: inner') = true := by
          apply (pfx_iff closeTag (c :: inner')).mpr
          refine ⟨(c :: inner').drop 9, ?_⟩
          rw [← h2, List.take_append_drop]
        exact absurd (occursIn_of_pfx closeTag (c :: inner') closeTag_ne_nil hpfx2)
          (by rw [hocc]; simp)
      · -- an occurrence straddling the boundary needs a border of "</script>"
        have hcons : (c :: inner').length = inner'.length + 1 := List.length_cons c inner'
        have hklt : (c :: inner').length < 9 := by omega
        have hk1 : 1 ≤ (c :: inner').length := by omega
        have h1 := congrArg (List.take (c :: inner').length) ht
        rw [take_len_append (c :: inner') (closeTag ++ post),
          take_append_le (c :: inner').length closeTag t (by rw [closeTag_len]; omega)] at h1
        have h2 := congrArg (List.drop (c :: inner').length) ht
        rw [drop_len_append (c :: inner') (closeTag ++ post),
          drop_append_le (c :: inner').length closeTag t (by rw [closeTag_len]; omega)] at h2
        have h3 := congrArg (List.take (9 - (c :: inner').length)) h2
        rw [take_append_le (9 - (c :: inner').length) closeTag post
          (by rw [closeTag_len]; omega)] at h3
        have h4 : (closeTag.drop (c :: inner').length ++ t).take (9 - (c :: inner').length) =
            closeTag.drop (c :: inner').length := by
          conv_lhs => rw [show (9 - (c :: inner').length) =
            (closeTag.drop (c :: inner').length).length from by
              rw [List.length_drop, closeTag_len]]
          exact take_len_append _ _
        rw [h4] at h3
        exact close_border (c :: inner').length hk1 hklt h3
    rw [List.cons_append, splitFirst, if_neg hnp, splitFirst_close inner' post hocc']

/-- Generic form of the leftmost-match argument: for a nonempty pattern
with no nontrivial border, the leftmost occurrence of `pat` in
`pre ++ pat ++ rest` is the explicit one, provided `pat` does not occur in
`pre` (no occurrence can straddle the boundary). -/
theorem splitFirst_left (pat : Str) (hne : pat ≠ [])
    (hbf : ∀ k, 1 ≤ k → k < pat.length → pat.take (pat.length - k) ≠ pat.drop k) :
    ∀ (pre rest : Str), occursIn pat pre = false →
    splitFirst pat (pre ++ (pat ++ rest)) = some (pre, rest)
| [], rest, _ => by
    show splitFirst pat (pat ++ rest) = some ([], rest)
    rw [splitFirst_of_pfx pat (pat ++ rest) hne (pfx_append_self pat rest), drop_len_append]
| c :: pre', rest, hocc => by
    have hocc' : occursIn pat pre' = false := by
      cases ho : occursIn pat pre'
      · rfl
      · exact absurd (occursIn_cons_of pat c pre' ho) (by rw [hocc]; simp)
    have hnp : ¬ pfx pat (c :: (pre' ++ (pat ++ rest))) = true := by
      intro hq
      obtain ⟨t, ht0⟩ := (pfx_iff _ _).mp hq
      have ht : (c :: pre') ++ (pat ++ rest) = pat ++ t := by
        rw [List.cons_append]; exact ht0
      by_cases hk : pat.length ≤ (c :: pre').length
      · -- an occurrence at position 0 would lie inside c :: pre'
        have h1 := congrArg (List.take pat.length) ht
        rw [take_append_le pat.length (c :: pre') (pat ++ rest) hk,
          take_append_le pat.length pat t (Nat.le_refl _)] at h1
        have h2 : (c :: pre').take pat.length = pat := h1.trans (List.take_length _)
        have hpfx2 : pfx pat (c :: pre') = true := by
          apply (pfx_iff pat (c :: pre')).mpr
          refine ⟨(c :: pre').drop pat.length, ?_⟩
          conv_lhs => rw [← List.take_append_drop pat.length (c :: pre')]
          rw [h2]
        exact absurd (occursIn_of_pfx pat (c :: pre') hne hpfx2)
          (by rw [hocc]; simp)
      · -- an occurrence straddling the boundary needs a border of the pattern
        have hcons : (c :: pre').length = pre'.length + 1 := List.length_cons c pre'
        have hklt : (c :: pre').length < pat.length := by omega
        have hk1 : 1 ≤ (c :: pre').length := by omega
        have h1 := congrArg (List.take (c :: pre').length) ht
        rw [take_len_append (c :: pre') (pat ++ rest),
          take_append_le (c :: pre').length pat t (by omega)] at h1
        have h2 := congrArg (List.drop (c :: pre').length) ht
        rw [drop_len_append (c :: pre') (pat ++ rest),
          drop_append_le (c :: pre').length pat t (by omega)] at h2
        have h3 := congrArg (List.take (pat.length - (c :: pre').length)) h2
        rw [take_append_le (pat.length - (c :: pre').length) pat rest (by omega)] at h3
        have h4 : (pat.drop (c :: pre').length ++ t).take (pat.length - (c :: pre').length) =
            pat.drop (c :: pre').length := by
          conv_lhs => rw [show (pat.length - (c :: pre').length) =
            (pat.drop (c :: pre').length).length from by
              rw [List.length_drop]]
          exact take_len_append _ _
        rw [h4] at h3
        exact hbf (c :: pre').length hk1 hklt h3
    rw [List.cons_append, splitFirst, if_neg hnp, splitFirst_left pat hne hbf pre' rest hocc']

theorem open_border : ∀ (k : Nat), 1 ≤ k → k < openTag.length →
    openTag.take (openTag.length - k) ≠ openTag.drop k := by
  intro k h1 h2
  have h2' : k < 46 := h2
  interval_cases k <;> decide

/-- The leftmost occurrence of the opening tag in `pre ++ openTag ++ rest`
is the explicit one, provided the opening tag does not occur in `pre`. -/
theorem splitFirst_open (pre rest : Str) (h : occursIn openTag pre = false) :
    splitFirst openTag (pre ++ (openTag ++ rest)) = some (pre, rest) :=
  splitFirst_left openTag (by decide) open_border pre rest h

theorem substAll_no_open (new : Str) : ∀ (fuel : Nat) (s : Str),
    occursIn openTag s = false → substAllFuel new fuel s = s
| 0, _, _ => rfl
| fuel + 1, s, h => by
    cases hs : splitFirst openTag s with
    | some pr =>
        exfalso
        rw [occursIn, hs] at h
        simp at h
    | none => rw [substAllFuel, hs]

/-! ### The id and path assigner -/

theorem decReprAux_eq : ∀ (fuel n : Nat), n < fuel →
    decReprAux fuel n = ((Nat.digits 10 n).map decChar).reverse
| 0, n, h => absurd h (Nat.not_lt_zero n)
| fuel + 1, n, h => by
    unfold decReprAux
    by_cases h0 : n = 0
    · simp [h0]
    · have hn : 0 < n := Nat.pos_of_ne_zero h0
      have hlt : n / 10 < fuel := by
        have hd : n / 10 < n := Nat.div_lt_self hn (by omega)
        omega
      rw [if_neg h0, decReprAux_eq fuel (n / 10) hlt,
        Nat.digits_def' (by omega : 1 < 10) hn]
      simp

theorem decRepr_eq (n : Nat) : decRepr n = ((Nat.digits 10 n).map decChar).reverse :=
  decReprAux_eq (n + 1) n (Nat.lt_succ_self n)

theorem decChar_val (d : Nat) (h : d < 10) : digitVal (decChar d) = d := by
  interval_cases d <;> decide

theorem foldl_dec_zeros : ∀ (k : Nat) (l : Str),
    (List.replicate k '0' ++ l).foldl (fun a c => 10 * a + digitVal c) 0 =
      l.foldl (fun a c => 10 * a + digitVal c) 0
| 0, _ => rfl
| k + 1, l => by
    show (List.replicate k '0' ++ l).foldl (fun a c => 10 * a + digitVal c)
      (10 * 0 + digitVal '0') = _
    rw [show 10 * 0 + digitVal '0' = 0 from by decide]
    exact foldl_dec_zeros k l

theorem digitsFold : ∀ (ds : List Nat) (a : Nat), (∀ d ∈ ds, d < 10) →
    ((ds.map decChar).reverse).foldl (fun x c => 10 * x + digitVal c) a =
      a * 10 ^ ds.length + Nat.ofDigits 10 ds
| [], a, _ => by simp [Nat.ofDigits_nil]
| d :: ds, a, h => by
    rw [List.map_cons, List.reverse_cons, List.foldl_append]
    rw [digitsFold ds a (fun x hx => h x (by simp [hx]))]
    show 10 * (a * 10 ^ ds.length + Nat.ofDigits 10 ds) + digitVal (decChar d) =
      a * 10 ^ (d :: ds).length + Nat.ofDigits 10 (d :: ds)
    rw [decChar_val d (h d (by simp)), Nat.ofDigits_cons, List.length_cons, pow_succ]
    ring

theorem parse_format (c : Nat) : parseBackId (formatId c) = c := by
  rw [parseBackId, formatId]
  show (List.replicate (5 - (decRepr c).length) '0' ++ decRepr c).foldl
    (fun a ch => 10 * a + digitVal ch) 0 = c
  rw [foldl_dec_zeros, decRepr_eq,
    digitsFold (Nat.digits 10 c) 0 (fun d hd => Nat.digits_lt_base (by omega) hd),
    Nat.ofDigits_digits]
  omega

theorem formatId_inj : Function.Injective formatId := by
  intro a b h
  rw [← parse_format a, ← parse_format b, h]

mutual

theorem assignIds_counter : ∀ (n : Node) (c : Nat) (p : List Str),
    (assignIds n c p).2 = c + n.size
| .mk t lv ch _, c, p => by
    show (assignIdsList ch (c + 1) (if 0 < lv then p ++ [t] else [t])).2 = c + (1 + sizeList ch)
    rw [assignIdsList_counter ch (c + 1) (if 0 < lv then p ++ [t] else [t])]
    omega

theorem assignIdsList_counter : ∀ (ns : List Node) (c : Nat) (p : List Str),
    (assignIdsList ns c p).2 = c + sizeList ns
| [], c, _ => by show c = c + 0; omega
| n :: ns, c, p => by
    show (assignIdsList ns (assignIds n c p).2 p).2 = c + (n.size + sizeList ns)
    rw [assignIdsList_counter ns (assignIds n c p).2 p, assignIds_counter n c p]
    omega

end

mutual

theorem assignIds_ids : ∀ (n : Node) (c : Nat) (p : List Str),
    preIds (assignIds n c p).1 = (List.range n.size).map (fun i => formatId (c + i))
| .mk t lv ch co, c, p => by
    show formatId c :: preIdsList (assignIdsList ch (c + 1) (if 0 < lv then p ++ [t] else [t])).1
      = (List.range (1 + sizeList ch)).map (fun i => formatId (c + i))
    rw [assignIdsList_ids ch (c + 1) (if 0 < lv then p ++ [t] else [t])]
    rw [List.range_add, List.map_append, List.map_map]
    have h1 : (List.range 1).map (fun i => formatId (c + i)) = [formatId c] := by
      show [formatId (c + 0)] = [formatId c]
      rw [Nat.add_zero]
    have h2 : ((fun i => formatId (c + i)) ∘ (fun x => 1 + x)) =
        (fun i => formatId (c + 1 + i)) := by
      funext i
      show formatId (c + (1 + i)) = formatId (c + 1 + i)
      congr 1
      omega
    rw [h1, h2]
    rfl

theorem assignIdsList_ids : ∀ (ns : List Node) (c : Nat) (p : List Str),
    preIdsList (assignIdsList ns c p).1 =
      (List.range (sizeList ns)).map (fun i => formatId (c + i))
| [], _, _ => rfl
| n :: ns, c, p => by
    show preIds (assignIds n c p).1 ++
        preIdsList (assignIdsList ns (assignIds n c p).2 p).1
      = (List.range (n.size + sizeList ns)).map (fun i => formatId (c + i))
    rw [assignIds_ids n c p, assignIdsList_ids ns (assignIds n c p).2 p,
      assignIds_counter n c p]
    rw [List.range_add, List.map_append, List.map_map]
    have h2 : ((fun i => formatId (c + i)) ∘ (fun x => n.size + x)) =
        (fun i => formatId (c + n.size + i)) := by
      funext i
      show formatId (c + (n.size + i)) = formatId (c + n.size + i)
      congr 1
      omega
    rw [h2]

end

theorem assignIds_title (n : Node) (c : Nat) (p : List Str) :
    (assignIds n c p).1.title = n.title := by
  cases n
  rfl

theorem assignIds_path (n : Node) (c : Nat) (p : List Str) :
    (assignIds n c p).1.path = if 0 < n.level then p ++ [n.title] else [n.title] := by
  cases n
  rfl

mutual

theorem assignIds_paths : ∀ (n : Node) (c : Nat) (p : List Str),
    posLevelsList n.children = true → pathsOkB (assignIds n c p).1 = true
| .mk t lv ch co, c, p, h => by
    show (childrenPathOk (if 0 < lv then p ++ [t] else [t])
        (assignIdsList ch (c + 1) (if 0 < lv then p ++ [t] else [t])).1 &&
      pathsOkListB (assignIdsList ch (c + 1) (if 0 < lv then p ++ [t] else [t])).1) = true
    have hh := assignIdsList_paths ch (c + 1) (if 0 < lv then p ++ [t] else [t]) h
    rw [hh.1, hh.2]
    rfl

theorem assignIdsList_paths : ∀ (ns : List Node) (c : Nat) (pp : List Str),
    posLevelsList ns = true →
    childrenPathOk pp (assignIdsList ns c pp).1 = true ∧
      pathsOkListB (assignIdsList ns c pp).1 = true
| [], _, _, _ => ⟨rfl, rfl⟩
| n :: ns, c, pp, h => by
    have h1 : posLevels n = true := (Bool.and_eq_true _ _ |>.mp h).1
    have h2 : posLevelsList ns = true := (Bool.and_eq_true _ _ |>.mp h).2
    have hlv : 0 < n.level := by
      cases n with
      | mk t lv ch co =>
          have := (Bool.and_eq_true _ _ |>.mp h1).1
          simpa using this
    have hch : posLevelsList n.children = true := by
      cases n with
      | mk t lv ch co => exact (Bool.and_eq_true _ _ |>.mp h1).2
    have ihn := assignIds_paths n c pp hch
    have ihl := assignIdsList_paths ns (assignIds n c pp).2 pp h2
    have hpath : (assignIds n c pp).1.path = pp ++ [(assignIds n c pp).1.title] := by
      rw [assignIds_path, if_pos hlv, assignIds_title]
    constructor
    · show (decide ((assignIds n c pp).1.path =
          pp ++ [(assignIds n c pp).1.title]) &&
        childrenPathOk pp (assignIdsList ns (assignIds n c pp).2 pp).1) = true
      rw [ihl.1, decide_eq_true hpath]
      rfl
    · show (pathsOkB (assignIds n c pp).1 &&
        pathsOkListB (assignIdsList ns (assignIds n c pp).2 pp).1) = true
      rw [ihn, ihl.2]
      rfl

end

/-! ### The claims -/

/-- C1, as stated, is false on the code: a paragraph whose style classifies
as a heading contributes no node when its text is whitespace-only (the blank
branch runs first), or when the classified level is 0 (`if lvl:` is falsy).
Here two paragraphs classify as headings but the tree has no non-root
node. -/
theorem C1_counterexample :
    (buildRoot [(([] : Str), "Heading 1".data), (['x'], "Heading 0".data)]).map
        (fun r => sizeList r.children) = some 0 ∧
      countClassified [(([] : Str), "Heading 1".data), (['x'], "Heading 0".data)] = 2 := by
  decide

/-- C1 (amended): for every paragraph sequence the number of non-root nodes
equals the number of paragraphs whose text is not whitespace-only and whose
style classifies as a heading of nonzero level. -/
theorem C1_node_count (ps : List (Str × Str)) :
    ∃ r, buildRoot ps = some r ∧ sizeList r.children = countHeadingPars ps := by
  obtain ⟨r, h1, _, _, hsz, _⟩ := buildRoot_spec ps
  refine ⟨r, h1, ?_⟩
  rw [node_size_eq] at hsz
  omega

/-- C2: the six-paragraph example builds a root with content
`["Intro", "Hello", "", "World"]` and exactly one child, of level 1, with
title "Section A" and content `["Body text"]`. -/
theorem C2_example :
    buildRoot [("Intro".data, "".data), ("Hello".data, "".data), ("".data, "".data),
        ("World".data, "".data), ("Section A".data, "Heading 1".data),
        ("Body text".data, "".data)] =
      some (Node.mk rootTitle 0 [Node.mk "Section A".data 1 [] ["Body text".data]]
        ["Intro".data, "Hello".data, [], "World".data]) := rfl

/-- C3, as stated, is false on the code: `heading_level` strips the style
name before matching, so a style name that is not itself of the "Heading"
form (here one with a leading space) still classifies as a heading. -/
theorem C3_counterexample :
    heading_level [' ', 'H', 'e', 'a', 'd', 'i', 'n', 'g', ' ', '1'] = some 1 ∧
      ¬ specIsHeadingForm [' ', 'H', 'e', 'a', 'd', 'i', 'n', 'g', ' ', '1'] 1 := by
  constructor
  · decide
  · rintro ⟨h7, ws, ds, heq, hmap, _hws, _hne, _hdig, _hn⟩
    obtain ⟨c, h7', hc⟩ : ∃ c h7', h7 = c :: h7' := by
      cases h7 with
      | nil => exact absurd hmap (by simp [headingWord])
      | cons a t => exact ⟨a, t, rfl⟩
    subst hc
    have hhead : (' ' : Char) = c := by
      have h0 := congrArg List.head? heq
      simpa using h0
    have hlow : Char.toLower c = 'h' := by
      have h0 := congrArg List.head? hmap
      simpa [headingWord] using h0
    rw [← hhead] at hlow
    exact absurd hlow (by decide)

/-- C3 (amended): the classifier returns level n exactly for style names
that, after stripping leading and trailing whitespace, are case-insensitively
"Heading" followed by optional whitespace and one or more digits with
nothing after the digits, and none otherwise; "Heading10" is level 10 and
"Heading 1B" is no heading. -/
theorem C3_classifier :
    (∀ s n, heading_level s = some n ↔ specIsHeadingForm (pyStrip s) n) ∧
      heading_level "Heading10".data = some 10 ∧
      heading_level "Heading 1B".data = none :=
  ⟨heading_level_eq_iff, by decide, by decide⟩

/-- C4: for every paragraph sequence, every node of the built tree has a
level strictly below the levels of all its children. -/
theorem C4_strict_hierarchy (ps : List (Str × Str)) :
    ∃ r, buildRoot ps = some r ∧ strictHierB r = true := by
  obtain ⟨r, h1, h2, _, _, _⟩ := buildRoot_spec ps
  exact ⟨r, h1, h2⟩

/-- C5: for every paragraph sequence, after the pruning pass no content
list anywhere in the tree has two consecutive blank sentinels or a trailing
blank sentinel. -/
theorem C5_content_invariant (ps : List (Str × Str)) :
    ∃ r, buildRoot ps = some r ∧ contentOkB r = true := by
  obtain ⟨r, h1, _, h3, _, _⟩ := buildRoot_spec ps
  exact ⟨r, h1, h3⟩

/-- C6: on every tree whose non-root nodes have positive level (the data
model reserves level 0 for the synthetic root), the assigner hands out the
ids n00000 .. n(N-1) in pre-order with no duplicates, gives the root the
path `[title]`, and gives every other node its parent's path with its own
title appended. -/
theorem C6_ids_paths (t : Node) (h : posLevelsList t.children = true) :
    preIds (assignIds t 0 []).1 = (List.range t.size).map formatId ∧
      (preIds (assignIds t 0 []).1).Nodup ∧
      (assignIds t 0 []).1.path = [t.title] ∧
      pathsOkB (assignIds t 0 []).1 = true := by
  have hids : preIds (assignIds t 0 []).1 = (List.range t.size).map formatId := by
    rw [assignIds_ids]
    have h0 : (fun i => formatId (0 + i)) = formatId := by
      funext i
      rw [Nat.zero_add]
    rw [h0]
  refine ⟨hids, ?_, ?_, assignIds_paths t 0 [] h⟩
  · rw [hids]
    exact List.Nodup.map formatId_inj (List.nodup_range _)
  · rw [assignIds_path]
    by_cases hlv : 0 < t.level
    · rw [if_pos hlv]
      rfl
    · rw [if_neg hlv]

/-- C6 witness: the theorem instantiated at a two-node tree. -/
theorem C6_ids_paths_witness :
    posLevelsList (Node.mk ['R'] 0 [Node.mk ['A'] 1 [] []] []).children = true ∧
      (preIds (assignIds (Node.mk ['R'] 0 [Node.mk ['A'] 1 [] []] []) 0 []).1 =
          (List.range (Node.mk ['R'] 0 [Node.mk ['A'] 1 [] []] []).size).map formatId ∧
        (preIds (assignIds (Node.mk ['R'] 0 [Node.mk ['A'] 1 [] []] []) 0 []).1).Nodup ∧
        (assignIds (Node.mk ['R'] 0 [Node.mk ['A'] 1 [] []] []) 0 []).1.path =
          [(Node.mk ['R'] 0 [Node.mk ['A'] 1 [] []] []).title] ∧
        pathsOkB (assignIds (Node.mk ['R'] 0 [Node.mk ['A'] 1 [] []] []) 0 []).1 = true) :=
  ⟨by decide, C6_ids_paths (Node.mk ['R'] 0 [Node.mk ['A'] 1 [] []] []) (by decide)⟩

/-- C7, as stated, is false on the code: the content line is appended with
only its trailing whitespace stripped (`rstrip`), so leading whitespace
survives into the node's content. -/
theorem C7_counterexample :
    (buildRoot [("  hi  ".data, ([] : Str))]).map Node.content = some ["  hi".data] ∧
      pyLstrip "  hi".data ≠ "  hi".data := by
  decide

/-- C7 (amended): for every non-blank paragraph whose style yields no
nonzero heading level, the loop appends the text with its trailing
whitespace stripped (leading whitespace preserved) to the stack-top node's
content. -/
theorem C7_content_line (f : Frame) (rest : List Frame) (text style : Str)
    (h1 : isBlank (pyRstrip text) = false)
    (h2 : heading_level style = none ∨ heading_level style = some 0) :
    step (f :: rest) (text, style) =
      some ({ f with content := f.content ++ [pyRstrip text] } :: rest) := by
  rcases h2 with h2 | h2 <;> simp [step, h1, h2]

/-- C7 witness: the amended theorem at a concrete paragraph. -/
theorem C7_content_line_witness :
    isBlank (pyRstrip "  hi  ".data) = false ∧
      (heading_level ([] : Str) = none ∨ heading_level ([] : Str) = some 0) ∧
      step [rootFrame] ("  hi  ".data, ([] : Str)) =
        some ({ rootFrame with content := rootFrame.content ++ [pyRstrip "  hi  ".data] } :: []) :=
  ⟨by decide, Or.inl (by decide),
    C7_content_line rootFrame [] "  hi  ".data [] (by decide) (Or.inl (by decide))⟩

/-- C8, as stated, is false on the code: the lazy inner group of the
substitution pattern ends at the *first* "</script>", so when the old inner
content itself contains a full "</script>" the text after it is retained
rather than discarded. -/
theorem C8_counterexample :
    occursIn ltScript "A</script>B".data = true ∧
      injectJson ['J'] (openTag ++ "A</script>B".data ++ closeTag) ≠
        openTag ++ ['J'] ++ closeTag := by
  decide

/-- C8 (amended): for every template text around the placeholder — the
opening tag occurring neither in the text before the region nor in the text
after it — when the placeholder's old inner content contains the literal
"</script" but no full "</script>", the whole inner content is discarded
and replaced by the new JSON text, with the surrounding text preserved. -/
theorem C8_injection (pre inner post new : Str)
    (_h1 : occursIn ltScript inner = true)
    (h0 : occursIn openTag pre = false)
    (h2 : occursIn closeTag inner = false)
    (h3 : occursIn openTag post = false) :
    injectJson new (pre ++ openTag ++ inner ++ closeTag ++ post) =
      pre ++ openTag ++ new ++ closeTag ++ post := by
  have hsplit1 : splitFirst openTag (pre ++ (openTag ++ (inner ++ (closeTag ++ post)))) =
      some (pre, inner ++ (closeTag ++ post)) :=
    splitFirst_open pre (inner ++ (closeTag ++ post)) h0
  have hsplit2 := splitFirst_close inner post h2
  have hm : (pre ++ openTag ++ inner ++ closeTag ++ post).length =
      ((pre ++ openTag ++ inner ++ closeTag ++ post).length - 1) + 1 := by
    have hlen0 : 0 < openTag.length := by decide
    simp [List.length_append]
    omega
  have hassoc : pre ++ openTag ++ inner ++ closeTag ++ post =
      pre ++ (openTag ++ (inner ++ (closeTag ++ post))) := by
    simp [List.append_assoc]
  rw [injectJson, hm, hassoc]
  rw [substAllFuel, hsplit1]
  simp only []
  rw [hsplit2]
  simp only []
  rw [substAll_no_open new _ post h3]

/-- C8 witness: the amended theorem at a concrete template with text on
both sides of the placeholder. -/
theorem C8_injection_witness :
    occursIn ltScript "A</script".data = true ∧
      occursIn openTag "<html>".data = false ∧
      occursIn closeTag "A</script".data = false ∧
      occursIn openTag "</html>".data = false ∧
      injectJson ['J'] ("<html>".data ++ openTag ++ "A</script".data ++ closeTag ++
          "</html>".data) =
        "<html>".data ++ openTag ++ ['J'] ++ closeTag ++ "</html>".data :=
  ⟨by decide, by decide, by decide, by decide,
    C8_injection "<html>".data "A</script".data "</html>".data ['J']
      (by decide) (by decide) (by decide) (by decide)⟩

/-- C9: for every input string, the escaped output contains no occurrence
of the two-character sequence "</". -/
theorem C9_escape (s : Str) : ¬ (['<', '/'] <:+: escape_js_string s) := by
  intro hinf
  obtain ⟨u, v, huv⟩ := hinf
  have h1 : hasLtSlash (escape_js_string s) = false := escLtSlash_no (escBackslash s)
  rw [← huv] at h1
  rw [show u ++ ['<', '/'] ++ v = u ++ '<' :: '/' :: v from by simp] at h1
  rw [hasLtSlash_append_pattern u v] at h1
  exact Bool.noConfusion h1

/-- C10: the open-node stack is never empty: the whole run of the builder
succeeds (every `stack[-1]` access in the loop is modelled as a partial
operation, and the run never fails), and a root tree is always produced. -/
theorem C10_stack_safety (ps : List (Str × Str)) :
    (∃ st, runSteps [rootFrame] ps = some st ∧ st ≠ []) ∧
      (∃ r, build_tree ps = some r) := by
  obtain ⟨st, h1, hinv, _⟩ := runSteps_spec ps [rootFrame] stackInv_init
  have hne : st ≠ [] := by
    obtain ⟨_, hlast, _⟩ := hinv
    intro h0
    rw [h0] at hlast
    simp [lastLevel, lastElem?] at hlast
  refine ⟨⟨st, h1, hne⟩, ?_⟩
  obtain ⟨r, hr, _⟩ := buildRoot_spec ps
  exact ⟨(assignIds r 0 []).1, by rw [build_tree, hr]⟩

end Gross
